import Mathlib

/-!
Verification of the Padlock parser (`padlock.py`).

The development shallowly embeds the source: the six instruction descriptors,
the nested-list AST with its negative-index `push` primitive, and the
three-state character-by-character parser `parse`, including both symbol
character sets and both name-character modes.  Python runtime failures that
`AST.push` could raise on an invalid cursor path (IndexError on an
out-of-range index, or indexing/appending into a non-list element) are
modelled by the distinguished outcome `PErr.pushError`; the safety theorems
show this outcome is unreachable, so the model and the source agree on every
execution the parser can actually produce.
-/

set_option maxHeartbeats 1000000

namespace Padlock

/-- The `Symbol` enum of the source (the six emoji identities). -/
inductive SymbolE where
  | lock | unlock | key | pen | keylock | penlock
deriving DecidableEq

/-- The `Instruction` namedtuple: identifier, symbol, arity, branch count. -/
structure Instruction where
  name : String
  symbol : SymbolE
  args : Nat
  processes : Nat
deriving DecidableEq

def nil : Instruction := ⟨"nil", .lock, 0, 0⟩

def split : Instruction := ⟨"split", .unlock, 0, 2⟩

def decrypt : Instruction := ⟨"decrypt", .key, 2, 1⟩

def name : Instruction := ⟨"name", .pen, 1, 1⟩

def send : Instruction := ⟨"send", .keylock, 2, 1⟩

def receive : Instruction := ⟨"receive", .penlock, 2, 1⟩

/-- One element of a branch of the AST: an instruction descriptor, a name
literal (its characters in order), or a nested branch. -/
inductive Elem where
  | instr : Instruction → Elem
  | name : List Char → Elem
  | branch : List Elem → Elem

/-- The two configuration switches of `parse`. -/
structure Config where
  utf8Names : Bool
  asciiSymbols : Bool

def lockChar (cfg : Config) : Char := if cfg.asciiSymbols then 'N' else '🔒'

def unlockChar (cfg : Config) : Char := if cfg.asciiSymbols then 'S' else '🔓'

def keyChar (cfg : Config) : Char := if cfg.asciiSymbols then 'K' else '🔑'

def penChar (cfg : Config) : Char := if cfg.asciiSymbols then 'P' else '🖋'

def keylockChar (cfg : Config) : Char := if cfg.asciiSymbols then 'E' else '🔐'

def penlockChar (cfg : Config) : Char := if cfg.asciiSymbols then 'R' else '🔏'

/-- Resolution `symbols.index(char)` composed with `instructions[index]`: the symbol
tuple `(lock, unlock, key, pen, keylock, penlock)` is matched positionally
against `(nil, split, decrypt, name, send, receive)`; the six characters of
each set are pairwise distinct, so first-match lookup is plain lookup. -/
def resolve (cfg : Config) (c : Char) : Option Instruction :=
  if c = lockChar cfg then some nil
  else if c = unlockChar cfg then some split
  else if c = keyChar cfg then some decrypt
  else if c = penChar cfg then some name
  else if c = keylockChar cfg then some send
  else if c = penlockChar cfg then some receive
  else none

/-- Membership test `char in symbols`. -/
def symMem (cfg : Config) (c : Char) : Bool := (resolve cfg c).isSome

/-- Python `str.isspace` on a single character (Unicode whitespace). -/
def pyIsSpace (c : Char) : Bool :=
  let n := c.toNat
  (9 ≤ n && n ≤ 13) || (28 ≤ n && n ≤ 31) || n == 32 || n == 133 || n == 160 ||
  n == 0x1680 || (0x2000 ≤ n && n ≤ 0x200A) || n == 0x2028 || n == 0x2029 ||
  n == 0x202F || n == 0x205F || n == 0x3000

/-- Python sequence indexing `x[i]` for a sequence of length `n`: a negative
index counts from the end; out of range is `none` (IndexError). -/
def pyIdx (i : Int) (n : Nat) : Option Nat :=
  if 0 ≤ i then (if i < (n : Int) then some i.toNat else none)
  else (if 0 ≤ i + (n : Int) then some (i + (n : Int)).toNat else none)

/-- The method `AST.push`: traverse the nested lists along `indices` and append `value`
at the end of the branch reached.  A traversal step that is out of range or
lands on a non-branch element is `none` (a Python runtime error). -/
def push (b : List Elem) (v : Elem) : List Int → Option (List Elem)
  | [] => some (b ++ [v])
  | i :: p =>
    match pyIdx i b.length with
    | none => none
    | some j =>
      match b.get? j with
      | some (.branch sub) =>
        match push sub v p with
        | none => none
        | some sub2 => some (b.set j (.branch sub2))
      | _ => none

/-- The three parser states `idle`, `raw`, `blank`. -/
inductive PState where
  | idle | raw | blank
deriving DecidableEq

/-- Fatal parse outcomes: the three Padlock exceptions plus the modelled
Python runtime failure of an invalid `push`. -/
inductive PErr where
  | invalidSymbol | invalidArgumentCount | unexpectedEOF | pushError
deriving DecidableEq

/-- The mutable state of one `parse` invocation. -/
structure ParseSt where
  state : PState
  ast : List Elem
  stackPtr : List Int
  instruction : Instruction
  nameCount : Nat
  nameStack : List Char

/-- The loop `while stack_ptr[-1] == -1: stack_ptr.pop()`: remove every trailing `-1`. -/
def popTrail : List Int → List Int
  | [] => []
  | d :: p =>
    match popTrail p with
    | [] => if d = -1 then [] else [d]
    | q => d :: q

/-- Assignment `stack_ptr[-1] = v` on a nonempty list. -/
def setLast : List Int → Int → List Int
  | [], _ => []
  | [_], v => [v]
  | d :: p, v => d :: setLast p v

/-- One iteration of the character loop of `parse`. -/
def step (cfg : Config) (st : ParseSt) (c : Char) : Except PErr ParseSt :=
  match st.state with
  | .idle =>
    match resolve cfg c with
    | none => .ok st
    | some ins =>
      match push st.ast (.instr ins) st.stackPtr with
      | none => .error .pushError
      | some a1 =>
        if ins = nil then
          match popTrail st.stackPtr with
          | [] => .ok ⟨.blank, a1, [], ins, 0, st.nameStack⟩
          | q => .ok ⟨.idle, a1, setLast q (-1), ins, 0, st.nameStack⟩
        else if ins = split then
          match push a1 (.branch []) st.stackPtr with
          | none => .error .pushError
          | some a2 =>
            match push a2 (.branch []) st.stackPtr with
            | none => .error .pushError
            | some a3 => .ok ⟨.idle, a3, st.stackPtr ++ [-2], ins, 0, st.nameStack⟩
        else
          .ok ⟨.raw, a1, st.stackPtr, ins, 0, st.nameStack⟩
  | .raw =>
    if c = penChar cfg then
      if st.instruction.args > st.nameCount + 1 then
        match push st.ast (.name st.nameStack) st.stackPtr with
        | none => .error .pushError
        | some a1 =>
          .ok ⟨.raw, a1, st.stackPtr, st.instruction, st.nameCount + 1, []⟩
      else if st.instruction.args = st.nameCount + 1 then
        match push st.ast (.name st.nameStack) st.stackPtr with
        | none => .error .pushError
        | some a1 =>
          .ok ⟨.idle, a1, st.stackPtr, st.instruction, st.nameCount + 1, []⟩
      else
        .error .invalidArgumentCount
    else
      if (cfg.utf8Names && !pyIsSpace c) || symMem cfg c then
        .ok ⟨.raw, st.ast, st.stackPtr, st.instruction, st.nameCount, st.nameStack ++ [c]⟩
      else
        .ok st
  | .blank =>
    if symMem cfg c then .error .invalidSymbol else .ok st

/-- The initial parser state. -/
def initSt : ParseSt := ⟨.idle, [], [], nil, 0, []⟩

/-- The character loop of `parse`. -/
def runList (cfg : Config) : ParseSt → List Char → Except PErr ParseSt
  | st, [] => .ok st
  | st, c :: cs =>
    match step cfg st c with
    | .error e => .error e
    | .ok st' => runList cfg st' cs

/-- The function `parse`: run the loop from the initial state, then apply the end-of-input
checks. -/
def parse (cfg : Config) (s : List Char) : Except PErr (List Elem) :=
  match runList cfg initSt s with
  | .error e => .error e
  | .ok st =>
    match st.state with
    | .idle => .error .unexpectedEOF
    | .raw => .error .unexpectedEOF
    | .blank => .ok st.ast

/-- A parser state reachable by running some input prefix from the start. -/
def Reachable (cfg : Config) (st : ParseSt) : Prop :=
  ∃ s : List Char, runList cfg initSt s = .ok st

/-- Structural scanner used as the parse invariant.  `scan n m b = some (n', m')`
means: reading `b` left to right while still owing `n` name literals to the
previous instruction and `m` sibling branches to the previous `split`
succeeds and ends owing `(n', m')`.  While names are owed only a name literal
is accepted; while branches are owed only a complete nested branch is
accepted; an instruction is accepted only with nothing owed, and it starts a
new debt of its arity in names and, for `split`, two sibling branches. -/
def scan : Nat → Nat → List Elem → Option (Nat × Nat)
  | n, m, [] => some (n, m)
  | n + 1, m, .name _ :: rest => scan n m rest
  | _ + 1, _, _ => none
  | 0, m + 1, .branch x :: rest =>
    match scan 0 0 x with
    | some (0, 0) => scan 0 m rest
    | _ => none
  | 0, _ + 1, _ => none
  | 0, 0, .instr i :: rest => scan i.args (if i = split then 2 else 0) rest
  | 0, 0, .name _ :: _ => none
  | 0, 0, .branch _ :: _ => none

/-- Every `split` in the tree is immediately followed by exactly two nested
branches, and branch elements occur only as such pairs. -/
def splitPaired : List Elem → Bool
  | [] => true
  | .branch _ :: _ => false
  | .name _ :: rest => splitPaired rest
  | .instr i :: .branch x :: .branch y :: rest2 =>
    decide (i = split) && splitPaired x && splitPaired y && splitPaired rest2
  | .instr i :: rest => decide (i ≠ split) && splitPaired rest

/-- Total number of branch elements in the tree, nested ones included. -/
def branchCount : List Elem → Nat
  | [] => 0
  | .branch b :: rest => 1 + branchCount b + branchCount rest
  | _ :: rest => branchCount rest

/-- Total number of `split` instruction nodes in the tree. -/
def splitCount : List Elem → Nat
  | [] => 0
  | .instr i :: rest => (if i = split then 1 else 0) + splitCount rest
  | .branch b :: rest => splitCount b + splitCount rest
  | _ :: rest => splitCount rest

/-- Every instruction node is immediately followed, within its branch, by a
run of name literals of length exactly its arity (`arityRun k b` reads `b`
still owing `k` names to the previous instruction). -/
def arityRun : Nat → List Elem → Bool
  | 0, [] => true
  | k + 1, .name _ :: rest => arityRun k rest
  | _ + 1, _ => false
  | 0, .instr i :: rest => arityRun i.args rest
  | 0, .name _ :: _ => false
  | 0, .branch b :: rest => arityRun 0 b && arityRun 0 rest

/-- Every character of every name literal in the tree satisfies `P`. -/
def namesOk (P : Char → Bool) : List Elem → Bool
  | [] => true
  | .instr _ :: rest => namesOk P rest
  | .name s :: rest => s.all P && namesOk P rest
  | .branch b :: rest => namesOk P b && namesOk P rest

/-- The symbol-for-symbol translation between the visual (emoji) and plain
(ASCII) character sets: each of the six instruction identities has its two
symbols swapped; every other character is unchanged. -/
def translate (c : Char) : Char :=
  if c = '🔒' then 'N' else if c = '🔓' then 'S' else if c = '🔑' then 'K'
  else if c = '🖋' then 'P' else if c = '🔐' then 'E' else if c = '🔏' then 'R'
  else if c = 'N' then '🔒' else if c = 'S' then '🔓' else if c = 'K' then '🔑'
  else if c = 'P' then '🖋' else if c = 'E' then '🔐' else if c = 'R' then '🔏'
  else c

mutual

/-- Apply `translate` to every character of every name literal. -/
def mapElem : Elem → Elem
  | .instr i => .instr i
  | .name s => .name (s.map translate)
  | .branch b => .branch (mapB b)

/-- Map `mapElem` over a branch. -/
def mapB : List Elem → List Elem
  | [] => []
  | e :: r => mapElem e :: mapB r

end

mutual

/-- The structural shape of an element: name literal contents erased, the
instruction identities and the branch nesting kept. -/
def shapeElem : Elem → Elem
  | .instr i => .instr i
  | .name _ => .name []
  | .branch b => .branch (shapeB b)

/-- Map `shapeElem` over a branch. -/
def shapeB : List Elem → List Elem
  | [] => []
  | e :: r => shapeElem e :: shapeB r

end

/-- The visual-to-plain translation on whole parser states. -/
def stMap (st : ParseSt) : ParseSt :=
  ⟨st.state, mapB st.ast, st.stackPtr, st.instruction, st.nameCount,
    st.nameStack.map translate⟩

/-- Sequential `push` of several values at the same cursor path. -/
def pushL (b : List Elem) (p : List Int) : List Elem → Option (List Elem)
  | [] => some b
  | v :: l =>
    match push b v p with
    | none => none
    | some b2 => pushL b2 p l

/-- Name literals still owed to the pending instruction (zero outside the
name-collecting state). -/
def rawOwe (st : ParseSt) : Nat :=
  match st.state with
  | .raw => st.instruction.args - st.nameCount
  | _ => 0

/-- Characters that the parser can ever place inside a name literal under
configuration `cfg`: never the delimiter, and in restricted mode only
recognized symbols. -/
def nameChar (cfg : Config) (c : Char) : Bool :=
  decide (c ≠ penChar cfg) && (cfg.utf8Names || symMem cfg c)

/-- Invariant tying the AST under construction to the cursor path: each
directive descends into the second-to-last (`-2`) or last (`-1`) element of
the current branch, which ends with a `split` and its two sibling branches,
the prefix before them being structurally complete; the sibling not on the
path is complete, and the branch at the end of the path is complete except
for `k` still-owed name literals. -/
def TreeInv : List Elem → List Int → Nat → Prop
  | b, [], k => scan 0 0 b = some (k, 0)
  | b, d :: p, k =>
    ∃ l0 x y, b = l0 ++ [.instr split, .branch x, .branch y] ∧
      scan 0 0 l0 = some (0, 0) ∧
      ((d = -2 ∧ scan 0 0 y = some (0, 0) ∧ TreeInv x p k) ∨
       (d = -1 ∧ scan 0 0 x = some (0, 0) ∧ TreeInv y p k))

/-- The master invariant of one `parse` invocation. -/
structure Good (cfg : Config) (st : ParseSt) : Prop where
  tree : TreeInv st.ast st.stackPtr (rawOwe st)
  raw_lt : st.state = .raw → st.nameCount < st.instruction.args
  blank_empty : st.state = .blank → st.stackPtr = []
  names_ast : namesOk (nameChar cfg) st.ast = true
  names_buf : st.nameStack.all (nameChar cfg) = true

/-! ### Basic facts about the structural scanner -/

lemma scan_nil (n m : Nat) : scan n m [] = some (n, m) := by simp [scan]

lemma scan_name_cons (n m : Nat) (s : List Char) (r : List Elem) :
    scan (n + 1) m (.name s :: r) = scan n m r := by simp [scan]

lemma scan_instr_cons (i : Instruction) (r : List Elem) :
    scan 0 0 (.instr i :: r) = scan i.args (if i = split then 2 else 0) r := by
  simp [scan]

lemma scan_branch_cons_ok (m : Nat) (x r : List Elem) (hx : scan 0 0 x = some (0, 0)) :
    scan 0 (m + 1) (.branch x :: r) = scan 0 m r := by
  simp [scan, hx]

lemma scan_append : ∀ (n m : Nat) (b : List Elem) (n' m' : Nat) (l : List Elem),
    scan n m b = some (n', m') → scan n m (b ++ l) = scan n' m' l := by
  intro n m b
  induction n, m, b using scan.induct with
  | case1 n m =>
    intro n' m' l h
    rw [scan_nil] at h
    obtain ⟨rfl, rfl⟩ : n = n' ∧ m = m' := by simpa using h
    simp
  | case2 n m s rest ih =>
    intro n' m' l h
    rw [scan_name_cons] at h
    rw [List.cons_append, scan_name_cons]
    exact ih n' m' l h
  | case3 n m x hnil hname =>
    intro n' m' l h
    exfalso
    rcases x with _ | ⟨e, r⟩
    · exact hnil rfl
    · cases e with
      | name s => exact hname s r rfl
      | instr i => simp [scan] at h
      | branch b => simp [scan] at h
  | case4 m x rest hx ihx ih =>
    intro n' m' l h
    rw [scan_branch_cons_ok m x rest hx] at h
    rw [List.cons_append, scan_branch_cons_ok m x (rest ++ l) hx]
    exact ih n' m' l h
  | case5 m x rest hx ihx =>
    intro n' m' l h
    exfalso
    rw [show scan 0 (m + 1) (.branch x :: rest) =
        (match scan 0 0 x with
         | some (0, 0) => scan 0 m rest
         | _ => none) from by simp [scan]] at h
    rcases hsx : scan 0 0 x with _ | ⟨ns, ms⟩
    · rw [hsx] at h
      simp at h
    · rw [hsx] at h
      rcases ns with _ | ns
      · rcases ms with _ | ms
        · exact hx hsx
        · simp at h
      · simp at h
  | case6 m x hnil hbr =>
    intro n' m' l h
    exfalso
    rcases x with _ | ⟨e, r⟩
    · exact hnil rfl
    · cases e with
      | branch b => exact hbr b r rfl
      | instr i => simp [scan] at h
      | name s => simp [scan] at h
  | case7 i rest ih =>
    intro n' m' l h
    rw [scan_instr_cons] at h
    rw [List.cons_append, scan_instr_cons]
    exact ih n' m' l h
  | case8 s tail =>
    intro n' m' l h
    exfalso
    simp [scan] at h
  | case9 x tail =>
    intro n' m' l h
    exfalso
    simp [scan] at h

/-! ### Facts about the cursor-path traversal of `push` -/

lemma pyIdx_m2 (n : Nat) : pyIdx (-2) (n + 3) = some (n + 1) := by
  unfold pyIdx
  rw [if_neg (by decide)]
  rw [if_pos (by omega)]
  congr 1
  omega

lemma pyIdx_m1 (n : Nat) : pyIdx (-1) (n + 3) = some (n + 2) := by
  unfold pyIdx
  rw [if_neg (by decide)]
  rw [if_pos (by omega)]
  congr 1
  omega

lemma get_app3_1 (l0 : List Elem) (a b c : Elem) :
    (l0 ++ [a, b, c]).get? (l0.length + 1) = some b := by
  induction l0 with
  | nil => rfl
  | cons e r ih =>
    simp only [List.length_cons, List.cons_append, List.get?_cons_succ]
    exact ih

lemma get_app3_2 (l0 : List Elem) (a b c : Elem) :
    (l0 ++ [a, b, c]).get? (l0.length + 2) = some c := by
  induction l0 with
  | nil => rfl
  | cons e r ih =>
    simp only [List.length_cons, List.cons_append, List.get?_cons_succ]
    exact ih

lemma set_app3_1 (l0 : List Elem) (a b c v : Elem) :
    (l0 ++ [a, b, c]).set (l0.length + 1) v = l0 ++ [a, v, c] := by
  induction l0 with
  | nil => rfl
  | cons e r ih =>
    simp only [List.length_cons, List.cons_append, List.set_cons_succ]
    rw [ih]

lemma set_app3_2 (l0 : List Elem) (a b c v : Elem) :
    (l0 ++ [a, b, c]).set (l0.length + 2) v = l0 ++ [a, b, v] := by
  induction l0 with
  | nil => rfl
  | cons e r ih =>
    simp only [List.length_cons, List.cons_append, List.set_cons_succ]
    rw [ih]

lemma push_cons_m2 (l0 : List Elem) (a c : Elem) (x : List Elem) (v : Elem) (p : List Int) :
    push (l0 ++ [a, .branch x, c]) v ((-2) :: p) =
      Option.map (fun t => l0 ++ [a, .branch t, c]) (push x v p) := by
  have hlen : (l0 ++ [a, .branch x, c]).length = l0.length + 3 := by simp
  simp only [push, hlen, pyIdx_m2, get_app3_1]
  cases hp : push x v p with
  | none => simp
  | some t => simp [set_app3_1]

lemma push_cons_m1 (l0 : List Elem) (a b : Elem) (y : List Elem) (v : Elem) (p : List Int) :
    push (l0 ++ [a, b, .branch y]) v ((-1) :: p) =
      Option.map (fun t => l0 ++ [a, b, .branch t]) (push y v p) := by
  have hlen : (l0 ++ [a, b, .branch y]).length = l0.length + 3 := by simp
  simp only [push, hlen, pyIdx_m1, get_app3_2]
  cases hp : push y v p with
  | none => simp
  | some t => simp [set_app3_2]

lemma pushL_nil_path (b : List Elem) : ∀ l : List Elem, pushL b [] l = some (b ++ l) := by
  intro l
  induction l generalizing b with
  | nil => simp [pushL]
  | cons v l ih =>
    simp only [pushL, push]
    rw [ih]
    simp

lemma pushL_cons_m2 (l0 : List Elem) (a c : Elem) (p : List Int) :
    ∀ (l : List Elem) (x : List Elem),
      pushL (l0 ++ [a, .branch x, c]) ((-2) :: p) l =
        Option.map (fun t => l0 ++ [a, .branch t, c]) (pushL x p l) := by
  intro l
  induction l with
  | nil => intro x; simp [pushL]
  | cons v l ih =>
    intro x
    simp only [pushL, push_cons_m2]
    cases hp : push x v p with
    | none => simp
    | some t =>
      simp only [Option.map_some']
      exact ih t

lemma pushL_cons_m1 (l0 : List Elem) (a b : Elem) (p : List Int) :
    ∀ (l : List Elem) (y : List Elem),
      pushL (l0 ++ [a, b, .branch y]) ((-1) :: p) l =
        Option.map (fun t => l0 ++ [a, b, .branch t]) (pushL y p l) := by
  intro l
  induction l with
  | nil => intro y; simp [pushL]
  | cons v l ih =>
    intro y
    simp only [pushL, push_cons_m1]
    cases hp : push y v p with
    | none => simp
    | some t =>
      simp only [Option.map_some']
      exact ih t

lemma pushL_singleton (b : List Elem) (p : List Int) (v : Elem) :
    pushL b p [v] = push b v p := by
  simp only [pushL]
  cases hp : push b v p <;> simp [pushL]

/-! ### Facts about the tree-and-cursor invariant -/

lemma treeinv_nil_iff (b : List Elem) (k : Nat) :
    TreeInv b [] k ↔ scan 0 0 b = some (k, 0) := by
  simp only [TreeInv]

lemma treeinv_cons_iff (b : List Elem) (d : Int) (p : List Int) (k : Nat) :
    TreeInv b (d :: p) k ↔
      ∃ l0 x y, b = l0 ++ [.instr split, .branch x, .branch y] ∧
        scan 0 0 l0 = some (0, 0) ∧
        ((d = -2 ∧ scan 0 0 y = some (0, 0) ∧ TreeInv x p k) ∨
         (d = -1 ∧ scan 0 0 x = some (0, 0) ∧ TreeInv y p k)) := by
  simp only [TreeInv]

lemma treeinv_pushL : ∀ (p : List Int) (b : List Elem) (l : List Elem) (k k' : Nat),
    TreeInv b p k →
    (∀ cb : List Elem, scan 0 0 cb = some (k, 0) → scan 0 0 (cb ++ l) = some (k', 0)) →
    ∃ b', pushL b p l = some b' ∧ TreeInv b' p k' := by
  intro p
  induction p with
  | nil =>
    intro b l k k' h hap
    refine ⟨b ++ l, pushL_nil_path b l, ?_⟩
    rw [treeinv_nil_iff] at h ⊢
    exact hap b h
  | cons d p ih =>
    intro b l k k' h hap
    rw [treeinv_cons_iff] at h
    obtain ⟨l0, x, y, hb, hl0, hcase⟩ := h
    rcases hcase with ⟨hd, hy, hx⟩ | ⟨hd, hx, hy⟩
    · obtain ⟨x', hpx, hx'⟩ := ih x l k k' hx hap
      subst hb hd
      refine ⟨l0 ++ [.instr split, .branch x', .branch y], ?_, ?_⟩
      · rw [pushL_cons_m2, hpx]
        rfl
      · rw [treeinv_cons_iff]
        exact ⟨l0, x', y, rfl, hl0, Or.inl ⟨rfl, hy, hx'⟩⟩
    · obtain ⟨y', hpy, hy'⟩ := ih y l k k' hy hap
      subst hb hd
      refine ⟨l0 ++ [.instr split, .branch x, .branch y'], ?_, ?_⟩
      · rw [pushL_cons_m1, hpy]
        rfl
      · rw [treeinv_cons_iff]
        exact ⟨l0, x, y', rfl, hl0, Or.inr ⟨rfl, hx, hy'⟩⟩

lemma treeinv_split_push : ∀ (p : List Int) (b : List Elem), TreeInv b p 0 →
    ∃ b', pushL b p [.instr split, .branch [], .branch []] = some b' ∧
      TreeInv b' (p ++ [-2]) 0 := by
  intro p
  induction p with
  | nil =>
    intro b h
    rw [treeinv_nil_iff] at h
    refine ⟨b ++ [.instr split, .branch [], .branch []], pushL_nil_path b _, ?_⟩
    rw [show ([] : List Int) ++ [-2] = -2 :: [] from rfl, treeinv_cons_iff]
    exact ⟨b, [], [], rfl, h, Or.inl ⟨rfl, scan_nil 0 0, (treeinv_nil_iff [] 0).mpr (scan_nil 0 0)⟩⟩
  | cons d p ih =>
    intro b h
    rw [treeinv_cons_iff] at h
    obtain ⟨l0, x, y, hb, hl0, hcase⟩ := h
    rcases hcase with ⟨hd, hy, hx⟩ | ⟨hd, hx, hy⟩
    · obtain ⟨x', hpx, hx'⟩ := ih x hx
      subst hb hd
      refine ⟨l0 ++ [.instr split, .branch x', .branch y], ?_, ?_⟩
      · rw [pushL_cons_m2, hpx]
        rfl
      · rw [List.cons_append, treeinv_cons_iff]
        exact ⟨l0, x', y, rfl, hl0, Or.inl ⟨rfl, hy, hx'⟩⟩
    · obtain ⟨y', hpy, hy'⟩ := ih y hy
      subst hb hd
      refine ⟨l0 ++ [.instr split, .branch x, .branch y'], ?_, ?_⟩
      · rw [pushL_cons_m1, hpy]
        rfl
      · rw [List.cons_append, treeinv_cons_iff]
        exact ⟨l0, x, y', rfl, hl0, Or.inr ⟨rfl, hx, hy'⟩⟩

lemma scan_closed_triple (x y : List Elem) (hx : scan 0 0 x = some (0, 0))
    (hy : scan 0 0 y = some (0, 0)) :
    scan 0 0 [Elem.instr split, .branch x, .branch y] = some (0, 0) := by
  rw [scan_instr_cons, if_pos rfl]
  rw [show split.args = 0 from rfl]
  rw [scan_branch_cons_ok 1 x _ hx]
  rw [scan_branch_cons_ok 0 y _ hy]
  exact scan_nil 0 0

lemma setLast_cons (d : Int) (q : List Int) (v : Int) (hq : q ≠ []) :
    setLast (d :: q) v = d :: setLast q v := by
  cases q with
  | nil => exact absurd rfl hq
  | cons e r => rfl

lemma treeinv_escape : ∀ (p : List Int) (b : List Elem), TreeInv b p 0 →
    (popTrail p = [] → scan 0 0 b = some (0, 0)) ∧
    (popTrail p ≠ [] → TreeInv b (setLast (popTrail p) (-1)) 0) := by
  intro p
  induction p with
  | nil =>
    intro b h
    rw [treeinv_nil_iff] at h
    exact ⟨fun _ => h, fun hne => absurd rfl hne⟩
  | cons d p ih =>
    intro b h
    rw [treeinv_cons_iff] at h
    obtain ⟨l0, x, y, hb, hl0, hcase⟩ := h
    rcases hcase with ⟨hd, hy, hx⟩ | ⟨hd, hx, hy⟩
    · -- cursor inside the first sibling: the directive stops the upward walk
      subst hd
      cases hq : popTrail p with
      | nil =>
        have hxc : scan 0 0 x = some (0, 0) := (ih x hx).1 hq
        have hsingle : popTrail ((-2) :: p) = [-2] := by simp [popTrail, hq]
        constructor
        · intro hc
          rw [hsingle] at hc
          simp at hc
        · intro _
          rw [hsingle]
          rw [show setLast [-2] (-1) = [-1] from rfl]
          rw [treeinv_cons_iff]
          exact ⟨l0, x, y, hb, hl0, Or.inr ⟨rfl, hxc, (treeinv_nil_iff y 0).mpr hy⟩⟩
      | cons e r =>
        have hne : popTrail p ≠ [] := by simp [hq]
        have hx' := (ih x hx).2 hne
        have hcons : popTrail ((-2) :: p) = -2 :: (e :: r) := by simp [popTrail, hq]
        constructor
        · intro hc
          rw [hcons] at hc
          simp at hc
        · intro _
          rw [hcons, setLast_cons _ _ _ (by simp)]
          rw [treeinv_cons_iff]
          rw [hq] at hx'
          exact ⟨l0, x, y, hb, hl0, Or.inl ⟨rfl, hy, hx'⟩⟩
    · -- cursor inside the second sibling: the walk pops this directive
      subst hd
      cases hq : popTrail p with
      | nil =>
        have hyc : scan 0 0 y = some (0, 0) := (ih y hy).1 hq
        have hall : popTrail ((-1) :: p) = [] := by simp [popTrail, hq]
        constructor
        · intro _
          rw [hb]
          rw [scan_append 0 0 l0 0 0 _ hl0]
          exact scan_closed_triple x y hx hyc
        · intro hc
          exact absurd hall hc
      | cons e r =>
        have hne : popTrail p ≠ [] := by simp [hq]
        have hy' := (ih y hy).2 hne
        have hcons : popTrail ((-1) :: p) = -1 :: (e :: r) := by simp [popTrail, hq]
        constructor
        · intro hc
          rw [hcons] at hc
          simp at hc
        · intro _
          rw [hcons, setLast_cons _ _ _ (by simp)]
          rw [treeinv_cons_iff]
          rw [hq] at hy'
          exact ⟨l0, x, y, hb, hl0, Or.inr ⟨rfl, hx, hy'⟩⟩

lemma treeinv_mem : ∀ (p : List Int) (b : List Elem) (k : Nat),
    TreeInv b p k → ∀ d ∈ p, d = -2 ∨ d = -1 := by
  intro p
  induction p with
  | nil => intro b k _ d hd; simp at hd
  | cons d0 p ih =>
    intro b k h d hd
    rw [treeinv_cons_iff] at h
    obtain ⟨l0, x, y, _, _, hcase⟩ := h
    rcases List.mem_cons.mp hd with rfl | hmem
    · rcases hcase with ⟨hd0, _, _⟩ | ⟨hd0, _, _⟩
      · exact Or.inl hd0
      · exact Or.inr hd0
    · rcases hcase with ⟨_, _, hx⟩ | ⟨_, _, hy⟩
      · exact ih x k hx d hmem
      · exact ih y k hy d hmem

/-! ### Facts about the trailing-directive walk -/

lemma popTrail_decomp : ∀ p : List Int, ∃ m, p = popTrail p ++ List.replicate m (-1) := by
  intro p
  induction p with
  | nil => exact ⟨0, rfl⟩
  | cons d p ih =>
    obtain ⟨m, hm⟩ := ih
    cases hq : popTrail p with
    | nil =>
      rw [hq] at hm
      by_cases hd : d = -1
      · refine ⟨m + 1, ?_⟩
        simp [popTrail, hq, hd]
        rw [show List.replicate (m + 1) (-1 : Int) = -1 :: List.replicate m (-1) from rfl]
        simpa using hm
      · refine ⟨m, ?_⟩
        simp [popTrail, hq, hd]
        simpa using hm
    | cons e r =>
      refine ⟨m, ?_⟩
      rw [show popTrail (d :: p) = d :: (e :: r) from by simp [popTrail, hq]]
      rw [hq] at hm
      simpa using hm

lemma popTrail_mem (p : List Int) (a : Int) (h : a ∈ popTrail p) : a ∈ p := by
  obtain ⟨m, hm⟩ := popTrail_decomp p
  rw [hm]
  exact List.mem_append_left _ h

lemma getLastq_mem : ∀ (l : List Int) (a : Int), l.getLast? = some a → a ∈ l := by
  intro l
  induction l with
  | nil => intro a h; simp at h
  | cons e r ih =>
    intro a h
    cases r with
    | nil =>
      simp [List.getLast?] at h
      simp [h]
    | cons f t =>
      rw [List.getLast?_cons_cons] at h
      exact List.mem_cons_of_mem _ (ih a h)

lemma popTrail_last_ne : ∀ p : List Int, popTrail p ≠ [] →
    ∀ a, (popTrail p).getLast? = some a → a ≠ -1 := by
  intro p
  induction p with
  | nil => intro hne; exact absurd rfl hne
  | cons d p ih =>
    intro hne a hlast
    cases hq : popTrail p with
    | nil =>
      by_cases hd : d = -1
      · rw [show popTrail (d :: p) = [] from by simp [popTrail, hq, hd]] at hne
        exact absurd rfl hne
      · rw [show popTrail (d :: p) = [d] from by simp [popTrail, hq, hd]] at hlast
        simp [List.getLast?] at hlast
        rwa [hlast] at hd
    | cons e r =>
      rw [show popTrail (d :: p) = d :: (e :: r) from by simp [popTrail, hq]] at hlast
      rw [List.getLast?_cons_cons] at hlast
      rw [← hq] at hlast
      exact ih (by simp [hq]) a hlast

/-! ### The name-character predicate is preserved by `push` -/

lemma namesOk_append (P : Char → Bool) :
    ∀ a b : List Elem, namesOk P (a ++ b) = (namesOk P a && namesOk P b) := by
  intro a b
  induction a with
  | nil => simp [namesOk]
  | cons e r ih => cases e <;> simp [namesOk, ih, Bool.and_assoc]

lemma namesOk_get (P : Char → Bool) :
    ∀ (b : List Elem) (j : Nat) (e : Elem),
      namesOk P b = true → b.get? j = some e → namesOk P [e] = true := by
  intro b
  induction b with
  | nil => intro j e _ hg; simp at hg
  | cons f r ih =>
    intro j e hok hg
    cases j with
    | zero =>
      simp at hg
      subst hg
      cases f <;> simp [namesOk] at hok ⊢ <;> tauto
    | succ j =>
      simp only [List.get?_cons_succ] at hg
      have hr : namesOk P r = true := by
        cases f <;> simp [namesOk] at hok <;> tauto
      exact ih j e hr hg

lemma namesOk_set (P : Char → Bool) :
    ∀ (b : List Elem) (j : Nat) (v : Elem),
      namesOk P b = true → namesOk P [v] = true → namesOk P (b.set j v) = true := by
  intro b
  induction b with
  | nil => intro j v _ _; simp [namesOk]
  | cons f r ih =>
    intro j v hok hv
    cases j with
    | zero =>
      rw [List.set_cons_zero]
      have hr : namesOk P r = true := by
        cases f <;> simp [namesOk] at hok <;> tauto
      cases v <;> simp [namesOk] at hv ⊢ <;> tauto
    | succ j =>
      rw [List.set_cons_succ]
      have hr : namesOk P r = true := by
        cases f <;> simp [namesOk] at hok <;> tauto
      have hsub := ih j v hr hv
      cases f <;> simp [namesOk] at hok ⊢ <;> tauto

lemma namesOk_push (P : Char → Bool) :
    ∀ (p : List Int) (b : List Elem) (v : Elem) (b' : List Elem),
      push b v p = some b' → namesOk P b = true → namesOk P [v] = true →
      namesOk P b' = true := by
  intro p
  induction p with
  | nil =>
    intro b v b' h hok hv
    simp only [push, Option.some_inj] at h
    subst h
    rw [namesOk_append]
    simp [hok, hv]
  | cons i p ih =>
    intro b v b' h hok hv
    simp only [push] at h
    split at h
    · simp at h
    · rename_i j hidx
      split at h
      · rename_i sub hget
        split at h
        · simp at h
        · rename_i sub2 hps
          simp only [Option.some_inj] at h
          subst h
          have hsubOk : namesOk P sub = true := by
            have := namesOk_get P b j (.branch sub) hok hget
            simp [namesOk] at this
            exact this
          have hsub2 : namesOk P sub2 = true := ih sub v sub2 hps hsubOk hv
          exact namesOk_set P b j (.branch sub2) hok (by simp [namesOk, hsub2])
      · simp at h

/-! ### Scanner transitions for the three kinds of appended element -/

lemma hap_instr (ins : Instruction) (hne : ins ≠ split) :
    ∀ cb : List Elem, scan 0 0 cb = some (0, 0) →
      scan 0 0 (cb ++ [Elem.instr ins]) = some (ins.args, 0) := by
  intro cb hcb
  rw [scan_append 0 0 cb 0 0 _ hcb, scan_instr_cons, if_neg hne]
  exact scan_nil ins.args 0

lemma hap_name (k' : Nat) (s : List Char) :
    ∀ cb : List Elem, scan 0 0 cb = some (k' + 1, 0) →
      scan 0 0 (cb ++ [Elem.name s]) = some (k', 0) := by
  intro cb hcb
  rw [scan_append 0 0 cb (k' + 1) 0 _ hcb, scan_name_cons]
  exact scan_nil k' 0

lemma resolve_cases (cfg : Config) (c : Char) (ins : Instruction) :
    resolve cfg c = some ins →
    ins = nil ∨ ins = split ∨ ins = decrypt ∨ ins = name ∨ ins = send ∨ ins = receive := by
  unfold resolve
  intro h
  split_ifs at h <;> simp only [Option.some_inj] at h <;> tauto

/-! ### Preservation of the master invariant -/

lemma step_good (cfg : Config) (st : ParseSt) (c : Char) (hg : Good cfg st) :
    (∀ st', step cfg st c = .ok st' → Good cfg st') ∧
    step cfg st c ≠ .error .pushError ∧
    step cfg st c ≠ .error .invalidArgumentCount := by
  obtain ⟨state, ast, sp, ins0, nc, ns⟩ := st
  cases state with
  | idle =>
    have htree : TreeInv ast sp 0 := hg.tree
    rcases hres : resolve cfg c with _ | ins
    · simp only [step, hres]
      refine ⟨?_, by simp, by simp⟩
      intro st' h
      simp only [Except.ok.injEq] at h
      subst h
      exact hg
    · by_cases hnil : ins = nil
      · subst hnil
        obtain ⟨a1, hp1, htree1⟩ := treeinv_pushL sp ast [.instr nil] 0 0 htree
          (fun cb hcb => hap_instr nil (by decide) cb hcb)
        rw [pushL_singleton] at hp1
        have hesc := treeinv_escape sp a1 htree1
        have hnames1 : namesOk (nameChar cfg) a1 = true :=
          namesOk_push _ sp ast (.instr nil) a1 hp1 hg.names_ast (by simp [namesOk])
        cases hq : popTrail sp with
        | nil =>
          simp only [step, hres, hp1, hq, eq_self_iff_true, if_true]
          refine ⟨?_, by simp, by simp⟩
          intro st' h
          simp only [Except.ok.injEq] at h
          subst h
          exact ⟨(treeinv_nil_iff a1 0).mpr (hesc.1 hq), by intro hc; simp at hc,
            fun _ => rfl, hnames1, hg.names_buf⟩
        | cons e r =>
          simp only [step, hres, hp1, hq, eq_self_iff_true, if_true]
          refine ⟨?_, by simp, by simp⟩
          intro st' h
          simp only [Except.ok.injEq] at h
          subst h
          have htree2 := hesc.2 (by simp [hq])
          rw [hq] at htree2
          exact ⟨htree2, by intro hc; simp at hc, by intro hc; simp at hc,
            hnames1, hg.names_buf⟩
      · by_cases hsplit : ins = split
        · subst hsplit
          obtain ⟨b3, hp3, htree3⟩ := treeinv_split_push sp ast htree
          simp only [pushL] at hp3
          split at hp3
          · simp at hp3
          · rename_i a1 hp1
            split at hp3
            · simp at hp3
            · rename_i a2 hp2
              split at hp3
              · simp at hp3
              · rename_i a3 hp3f
                simp only [Option.some_inj] at hp3
                subst hp3
                simp only [step, hres, hp1, hp2, hp3f, if_neg hnil, eq_self_iff_true, if_true]
                refine ⟨?_, by simp, by simp⟩
                intro st' h
                simp only [Except.ok.injEq] at h
                subst h
                have hn1 : namesOk (nameChar cfg) a1 = true :=
                  namesOk_push _ sp ast (.instr split) a1 hp1 hg.names_ast (by simp [namesOk])
                have hn2 : namesOk (nameChar cfg) a2 = true :=
                  namesOk_push _ sp a1 (.branch []) a2 hp2 hn1 (by simp [namesOk])
                have hn3 : namesOk (nameChar cfg) a3 = true :=
                  namesOk_push _ sp a2 (.branch []) a3 hp3f hn2 (by simp [namesOk])
                exact ⟨htree3, by intro hc; simp at hc, by intro hc; simp at hc,
                  hn3, hg.names_buf⟩
        · have hargs : 0 < ins.args := by
            rcases resolve_cases cfg c ins hres with rfl | rfl | rfl | rfl | rfl | rfl
            · exact absurd rfl hnil
            · exact absurd rfl hsplit
            all_goals decide
          obtain ⟨a1, hp1, htree1⟩ := treeinv_pushL sp ast [.instr ins] 0 ins.args htree
            (hap_instr ins hsplit)
          rw [pushL_singleton] at hp1
          simp only [step, hres, hp1, if_neg hnil, if_neg hsplit]
          refine ⟨?_, by simp, by simp⟩
          intro st' h
          simp only [Except.ok.injEq] at h
          subst h
          refine ⟨htree1, fun _ => hargs, by intro hc; simp at hc, ?_, hg.names_buf⟩
          exact namesOk_push _ sp ast (.instr ins) a1 hp1 hg.names_ast (by simp [namesOk])
  | raw =>
    have htree : TreeInv ast sp (ins0.args - nc) := hg.tree
    have hlt : nc < ins0.args := hg.raw_lt rfl
    by_cases hpen : c = penChar cfg
    · by_cases h1 : ins0.args > nc + 1
      · obtain ⟨a1, hp1, htree1⟩ := treeinv_pushL sp ast [.name ns]
          (ins0.args - nc) (ins0.args - (nc + 1)) htree (by
            have hk : ins0.args - nc = (ins0.args - (nc + 1)) + 1 := by omega
            rw [hk]
            exact hap_name _ ns)
        rw [pushL_singleton] at hp1
        simp only [step, if_pos hpen, if_pos h1, hp1]
        refine ⟨?_, by simp, by simp⟩
        intro st' h
        simp only [Except.ok.injEq] at h
        subst h
        refine ⟨htree1, fun _ => (by omega : nc + 1 < ins0.args), by intro hc; simp at hc, ?_, by simp⟩
        exact namesOk_push _ sp ast (.name ns) a1 hp1 hg.names_ast
          (by simp [namesOk, hg.names_buf])
      · by_cases h2 : ins0.args = nc + 1
        · obtain ⟨a1, hp1, htree1⟩ := treeinv_pushL sp ast [.name ns]
            (ins0.args - nc) 0 htree (by
              have hk : ins0.args - nc = 0 + 1 := by omega
              rw [hk]
              exact hap_name 0 ns)
          rw [pushL_singleton] at hp1
          simp only [step, if_pos hpen, if_neg h1, if_pos h2, hp1]
          refine ⟨?_, by simp, by simp⟩
          intro st' h
          simp only [Except.ok.injEq] at h
          subst h
          refine ⟨htree1, by intro hc; simp at hc, by intro hc; simp at hc, ?_, by simp⟩
          exact namesOk_push _ sp ast (.name ns) a1 hp1 hg.names_ast
            (by simp [namesOk, hg.names_buf])
        · exfalso
          omega
    · simp only [step, if_neg hpen]
      by_cases hbuf : (cfg.utf8Names && !pyIsSpace c) || symMem cfg c
      · simp only [if_pos hbuf]
        refine ⟨?_, by simp, by simp⟩
        intro st' h
        simp only [Except.ok.injEq] at h
        subst h
        refine ⟨htree, fun _ => hlt, by intro hc; simp at hc, hg.names_ast, ?_⟩
        rw [List.all_append]
        refine (Bool.and_eq_true _ _).mpr ⟨hg.names_buf, ?_⟩
        have hcOk : nameChar cfg c = true := by
          unfold nameChar
          cases hu : cfg.utf8Names with
          | true => simp [hpen]
          | false =>
            rw [hu] at hbuf
            simp at hbuf
            simp [hpen, hbuf]
        simp [hcOk]
      · simp only [if_neg hbuf]
        refine ⟨?_, by simp, by simp⟩
        intro st' h
        simp only [Except.ok.injEq] at h
        subst h
        exact hg
  | blank =>
    by_cases hsym : symMem cfg c
    · simp only [step, if_pos hsym]
      exact ⟨by intro st' h; simp at h, by simp, by simp⟩
    · simp only [step, if_neg hsym]
      refine ⟨?_, by simp, by simp⟩
      intro st' h
      simp only [Except.ok.injEq] at h
      subst h
      exact hg

lemma initSt_good (cfg : Config) : Good cfg initSt :=
  ⟨(treeinv_nil_iff [] 0).mpr (scan_nil 0 0), by intro hc; simp [initSt] at hc,
    by intro hc; simp [initSt] at hc, by simp [initSt, namesOk], by simp [initSt]⟩

lemma run_good (cfg : Config) : ∀ (s : List Char) (st : ParseSt), Good cfg st →
    (∀ st', runList cfg st s = .ok st' → Good cfg st') ∧
    runList cfg st s ≠ .error .pushError ∧
    runList cfg st s ≠ .error .invalidArgumentCount := by
  intro s
  induction s with
  | nil =>
    intro st hg
    refine ⟨?_, by simp [runList], by simp [runList]⟩
    intro st' h
    simp only [runList, Except.ok.injEq] at h
    subst h
    exact hg
  | cons c cs ih =>
    intro st hg
    have hstep := step_good cfg st c hg
    rcases hs : step cfg st c with e | st1
    · have h1 : runList cfg st (c :: cs) = .error e := by simp [runList, hs]
      refine ⟨?_, ?_, ?_⟩
      · intro st' h
        rw [h1] at h
        simp at h
      · rw [h1]
        have he1 := hstep.2.1
        rw [hs] at he1
        exact he1
      · rw [h1]
        have he2 := hstep.2.2
        rw [hs] at he2
        exact he2
    · have h1 : runList cfg st (c :: cs) = runList cfg st1 cs := by simp [runList, hs]
      have hg1 : Good cfg st1 := hstep.1 st1 hs
      rw [h1]
      exact ih st1 hg1

lemma reachable_good (cfg : Config) (st : ParseSt) (h : Reachable cfg st) : Good cfg st := by
  obtain ⟨s, hs⟩ := h
  exact (run_good cfg s initSt (initSt_good cfg)).1 st hs

lemma step_no_eof (cfg : Config) (st : ParseSt) (c : Char) :
    step cfg st c ≠ .error .unexpectedEOF := by
  obtain ⟨state, ast, sp, ins0, nc, ns⟩ := st
  cases state <;> simp only [step] <;> (repeat' split) <;> simp

lemma run_no_eof (cfg : Config) : ∀ (s : List Char) (st : ParseSt),
    runList cfg st s ≠ .error .unexpectedEOF := by
  intro s
  induction s with
  | nil => intro st; simp [runList]
  | cons c cs ih =>
    intro st
    rcases hs : step cfg st c with e | st1
    · have he := step_no_eof cfg st c
      rw [hs] at he
      simp only [runList, hs]
      simpa using he
    · simp only [runList, hs]
      exact ih st1

lemma parse_ok_elim (cfg : Config) (s : List Char) (ast : List Elem)
    (h : parse cfg s = .ok ast) :
    ∃ st, runList cfg initSt s = .ok st ∧ st.state = .blank ∧ st.ast = ast := by
  unfold parse at h
  split at h
  · simp at h
  · rename_i st hr
    split at h
    · simp at h
    · simp at h
    · rename_i hst
      simp only [Except.ok.injEq] at h
      exact ⟨st, hr, hst, h⟩

lemma parse_ok_good (cfg : Config) (s : List Char) (ast : List Elem)
    (h : parse cfg s = .ok ast) : scan 0 0 ast = some (0, 0) ∧
      namesOk (nameChar cfg) ast = true := by
  obtain ⟨st, hr, hst, hast⟩ := parse_ok_elim cfg s ast h
  have hg : Good cfg st := reachable_good cfg st ⟨s, hr⟩
  have hsp : st.stackPtr = [] := hg.blank_empty hst
  have htree := hg.tree
  rw [hsp] at htree
  have hk : rawOwe st = 0 := by simp [rawOwe, hst]
  rw [hk] at htree
  rw [treeinv_nil_iff] at htree
  rw [hast] at htree
  refine ⟨htree, ?_⟩
  have := hg.names_ast
  rwa [hast] at this

/-! ### Derived structural properties of completely scanned trees -/

lemma scan_props : ∀ (n m : Nat) (b : List Elem), scan n m b = some (0, 0) →
    branchCount b = 2 * splitCount b + m ∧
    arityRun n b = true ∧
    (m = 0 → splitPaired b = true) ∧
    (m = 1 → n = 0 → ∃ x r, b = .branch x :: r ∧ splitPaired x = true ∧
      splitPaired r = true) ∧
    (m = 2 → n = 0 → ∃ x y r, b = .branch x :: .branch y :: r ∧ splitPaired x = true ∧
      splitPaired y = true ∧ splitPaired r = true) := by
  intro n m b
  induction n, m, b using scan.induct with
  | case1 n m =>
    intro h
    rw [scan_nil] at h
    obtain ⟨rfl, rfl⟩ : n = 0 ∧ m = 0 := by simpa using h
    refine ⟨by simp [branchCount, splitCount], by simp [arityRun], fun _ => by simp [splitPaired],
      ?_, ?_⟩
    · intro h1; exact absurd h1 (by decide)
    · intro h1; exact absurd h1 (by decide)
  | case2 n m s rest ih =>
    intro h
    rw [scan_name_cons] at h
    obtain ⟨ih1, ih2, ih3, _, _⟩ := ih h
    refine ⟨by simpa [branchCount, splitCount] using ih1, by simpa [arityRun] using ih2,
      fun hm => by simpa [splitPaired] using ih3 hm, ?_, ?_⟩
    · intro _ h0; exact absurd h0 (Nat.succ_ne_zero n)
    · intro _ h0; exact absurd h0 (Nat.succ_ne_zero n)
  | case3 n m x hnil hname =>
    intro h
    exfalso
    rcases x with _ | ⟨e, r⟩
    · exact hnil rfl
    · cases e with
      | name s => exact hname s r rfl
      | instr i => simp [scan] at h
      | branch b => simp [scan] at h
  | case4 m x rest hx ihx ih =>
    intro h
    rw [scan_branch_cons_ok m x rest hx] at h
    obtain ⟨jx1, jx2, jx3, _, _⟩ := ihx hx
    obtain ⟨ir1, ir2, ir3, ir4, _⟩ := ih h
    have hspx : splitPaired x = true := jx3 rfl
    refine ⟨?_, ?_, ?_, ?_, ?_⟩
    · simp only [branchCount, splitCount]
      omega
    · simp only [arityRun]
      rw [jx2, ir2]
      rfl
    · intro hm; exact absurd hm (by omega)
    · intro hm _
      have hm0 : m = 0 := by omega
      subst hm0
      exact ⟨x, rest, rfl, hspx, ir3 rfl⟩
    · intro hm _
      have hm1 : m = 1 := by omega
      subst hm1
      obtain ⟨y, r, hrest, hspy, hspr⟩ := ir4 rfl rfl
      exact ⟨x, y, r, by rw [hrest], hspx, hspy, hspr⟩
  | case5 m x rest hx ihx =>
    intro h
    exfalso
    rw [show scan 0 (m + 1) (.branch x :: rest) =
        (match scan 0 0 x with
         | some (0, 0) => scan 0 m rest
         | _ => none) from by simp [scan]] at h
    rcases hsx : scan 0 0 x with _ | ⟨ns, ms⟩
    · rw [hsx] at h
      simp at h
    · rw [hsx] at h
      rcases ns with _ | ns
      · rcases ms with _ | ms
        · exact hx hsx
        · simp at h
      · simp at h
  | case6 m x hnil hbr =>
    intro h
    exfalso
    rcases x with _ | ⟨e, r⟩
    · exact hnil rfl
    · cases e with
      | branch b => exact hbr b r rfl
      | instr i => simp [scan] at h
      | name s => simp [scan] at h
  | case7 i rest ih =>
    intro h
    rw [scan_instr_cons] at h
    by_cases hi : i = split
    · subst hi
      rw [if_pos rfl] at h
      have hdit : (if h : split = split then 2 else 0) = 2 := by rw [dif_pos rfl]
      have ihr := ih (by rw [hdit]; exact h)
      rw [hdit] at ihr
      obtain ⟨ir1, ir2, _, _, ir5⟩ := ihr
      obtain ⟨x, y, r, hrest, hspx, hspy, hspr⟩ := ir5 rfl rfl
      subst hrest
      refine ⟨?_, ?_, ?_, ?_, ?_⟩
      · simp [branchCount, splitCount] at ir1 ⊢
        omega
      · simpa [arityRun] using ir2
      · intro _
        simp [splitPaired, hspx, hspy, hspr]
      · intro hm; exact absurd hm (by decide)
      · intro hm; exact absurd hm (by decide)
    · rw [if_neg hi] at h
      have hdit : (if h : i = split then 2 else 0) = 0 := by rw [dif_neg hi]
      have ihr := ih (by rw [hdit]; exact h)
      rw [hdit] at ihr
      obtain ⟨ir1, ir2, ir3, _, _⟩ := ihr
      have hsp : splitPaired (Elem.instr i :: rest) = true := by
        rcases rest with _ | ⟨e, r⟩
        · simp [splitPaired, hi]
        · cases e with
          | branch b =>
            have := ir3 rfl
            simp [splitPaired] at this
          | instr i2 =>
            simp [splitPaired, hi, ir3 rfl]
          | name s =>
            simp [splitPaired, hi, ir3 rfl]
      refine ⟨?_, ?_, fun _ => hsp, ?_, ?_⟩
      · simp [branchCount, splitCount, hi] at ir1 ⊢
        omega
      · simpa [arityRun] using ir2
      · intro hm; exact absurd hm (by decide)
      · intro hm; exact absurd hm (by decide)
  | case8 s tail =>
    intro h
    exfalso
    simp [scan] at h
  | case9 x tail =>
    intro h
    exfalso
    simp [scan] at h

theorem namesOk_mono (P Q : Char → Bool) (hPQ : ∀ c, P c = true → Q c = true) :
    ∀ b : List Elem, namesOk P b = true → namesOk Q b = true
  | [] => fun _ => by simp [namesOk]
  | .instr i :: rest => by
    simp only [namesOk]
    exact namesOk_mono P Q hPQ rest
  | .name s :: rest => by
    simp only [namesOk, Bool.and_eq_true, List.all_eq_true]
    intro ⟨h1, h2⟩
    exact ⟨fun c hc => hPQ c (h1 c hc), namesOk_mono P Q hPQ rest h2⟩
  | .branch b :: rest => by
    simp only [namesOk, Bool.and_eq_true]
    intro ⟨h1, h2⟩
    exact ⟨namesOk_mono P Q hPQ b h1, namesOk_mono P Q hPQ rest h2⟩

/-! ### Character-set translation lemmas -/

lemma resolve_translate (u v : Bool) (c : Char) :
    resolve ⟨u, true⟩ (translate c) = resolve ⟨v, false⟩ c := by
  unfold translate
  split_ifs <;>
    simp_all [resolve, lockChar, unlockChar, keyChar, penChar, keylockChar, penlockChar]

lemma pen_translate (u v : Bool) (c : Char) :
    (translate c = penChar ⟨u, true⟩) ↔ (c = penChar ⟨v, false⟩) := by
  unfold translate
  split_ifs <;> simp_all [penChar]

lemma symMem_translate (u v : Bool) (c : Char) :
    symMem ⟨u, true⟩ (translate c) = symMem ⟨v, false⟩ c := by
  unfold symMem
  rw [resolve_translate u v c]

lemma pyIsSpace_translate (c : Char) : pyIsSpace (translate c) = pyIsSpace c := by
  unfold translate
  split_ifs <;> rename_i h <;> first | rfl | (subst h; decide)

/-! ### The name-translation map commutes with tree construction -/

lemma mapB_nil : mapB [] = [] := by simp [mapB]

lemma mapB_cons (e : Elem) (r : List Elem) : mapB (e :: r) = mapElem e :: mapB r := by
  simp [mapB]

lemma mapB_length : ∀ b : List Elem, (mapB b).length = b.length := by
  intro b
  induction b with
  | nil => simp [mapB]
  | cons e r ih => simp [mapB_cons, ih]

lemma mapB_append : ∀ a b : List Elem, mapB (a ++ b) = mapB a ++ mapB b := by
  intro a b
  induction a with
  | nil => simp [mapB]
  | cons e r ih => simp [mapB_cons, ih]

lemma mapB_get? : ∀ (b : List Elem) (j : Nat), (mapB b).get? j = (b.get? j).map mapElem := by
  intro b
  induction b with
  | nil => intro j; simp [mapB]
  | cons e r ih =>
    intro j
    cases j with
    | zero => simp [mapB_cons]
    | succ j =>
      simp only [mapB_cons, List.get?_cons_succ]
      exact ih j

lemma mapB_set : ∀ (b : List Elem) (j : Nat) (v : Elem),
    mapB (b.set j v) = (mapB b).set j (mapElem v) := by
  intro b
  induction b with
  | nil => intro j v; simp [mapB]
  | cons e r ih =>
    intro j v
    cases j with
    | zero => simp [mapB_cons]
    | succ j => simp [mapB_cons, ih]

lemma push_map : ∀ (p : List Int) (b : List Elem) (v : Elem),
    push (mapB b) (mapElem v) p = Option.map mapB (push b v p) := by
  intro p
  induction p with
  | nil =>
    intro b v
    simp only [push, mapB_append, mapB_cons, mapB_nil, Option.map_some']
  | cons i p ih =>
    intro b v
    simp only [push, mapB_length]
    cases hidx : pyIdx i b.length with
    | none => simp
    | some j =>
      simp only [mapB_get?]
      cases hget : b.get? j with
      | none => simp
      | some e =>
        cases e with
        | instr i2 => simp [mapElem]
        | name s => simp [mapElem]
        | branch sub =>
          simp only [Option.map_some']
          rw [show mapElem (.branch sub) = .branch (mapB sub) from by simp [mapElem]]
          dsimp only []
          cases hps : push sub v p with
          | none =>
            have hl : push (mapB sub) (mapElem v) p = none := by rw [ih sub v, hps]; rfl
            simp [hl]
          | some sub2 =>
            have hl : push (mapB sub) (mapElem v) p = some (mapB sub2) := by
              rw [ih sub v, hps]
              rfl
            simp [hl, mapB_set, mapElem]

lemma push_map_instr (p : List Int) (b : List Elem) (ins : Instruction) :
    push (mapB b) (.instr ins) p = Option.map mapB (push b (.instr ins) p) := by
  conv_lhs => rw [show (Elem.instr ins : Elem) = mapElem (.instr ins) from by simp [mapElem]]
  exact push_map p b (.instr ins)

lemma push_map_branchnil (p : List Int) (b : List Elem) :
    push (mapB b) (.branch []) p = Option.map mapB (push b (.branch []) p) := by
  conv_lhs => rw [show (Elem.branch [] : Elem) = mapElem (.branch []) from by
    simp [mapElem, mapB]]
  exact push_map p b (.branch [])

lemma push_map_name (p : List Int) (b : List Elem) (s : List Char) :
    push (mapB b) (.name (s.map translate)) p = Option.map mapB (push b (.name s) p) := by
  conv_lhs => rw [show (Elem.name (s.map translate) : Elem) = mapElem (.name s) from by
    simp [mapElem]]
  exact push_map p b (.name s)

lemma stMap_initSt : stMap initSt = initSt := by
  simp [stMap, initSt, mapB]

lemma step_map (u : Bool) (st : ParseSt) (c : Char) :
    step ⟨u, true⟩ (stMap st) (translate c) = Except.map stMap (step ⟨u, false⟩ st c) := by
  obtain ⟨state, ast, sp, ins0, nc, ns⟩ := st
  cases state with
  | idle =>
    simp only [step, stMap]
    rw [resolve_translate u u c]
    cases hres : resolve ⟨u, false⟩ c with
    | none => simp [Except.map, stMap]
    | some ins =>
      dsimp only []
      rw [push_map_instr sp ast ins]
      cases hp1 : push ast (.instr ins) sp with
      | none => simp [Except.map]
      | some a1 =>
        simp only [Option.map_some']
        try dsimp only []
        by_cases hnil : ins = nil
        · simp only [if_pos hnil]
          cases hq : popTrail sp with
          | nil => simp [Except.map, stMap]
          | cons e r => simp [Except.map, stMap]
        · simp only [if_neg hnil]
          by_cases hsplit : ins = split
          · simp only [if_pos hsplit]
            rw [push_map_branchnil sp a1]
            cases hp2 : push a1 (.branch []) sp with
            | none => simp [Except.map]
            | some a2 =>
              simp only [Option.map_some']
              try dsimp only []
              rw [push_map_branchnil sp a2]
              cases hp3 : push a2 (.branch []) sp with
              | none => simp [Except.map]
              | some a3 => simp [Except.map, stMap]
          · simp only [if_neg hsplit]
            simp [Except.map, stMap]
  | raw =>
    simp only [step, stMap]
    by_cases hpen : c = penChar ⟨u, false⟩
    · rw [if_pos ((pen_translate u u c).mpr hpen), if_pos hpen]
      by_cases h1 : ins0.args > nc + 1
      · simp only [if_pos h1]
        rw [push_map_name sp ast ns]
        cases hp1 : push ast (.name ns) sp with
        | none => simp [Except.map]
        | some a1 => simp [Except.map, stMap]
      · simp only [if_neg h1]
        by_cases h2 : ins0.args = nc + 1
        · simp only [if_pos h2]
          rw [push_map_name sp ast ns]
          cases hp1 : push ast (.name ns) sp with
          | none => simp [Except.map]
          | some a1 => simp [Except.map, stMap]
        · simp only [if_neg h2]
          simp [Except.map]
    · rw [if_neg (fun hc => hpen ((pen_translate u u c).mp hc)), if_neg hpen]
      rw [pyIsSpace_translate, symMem_translate u u c]
      by_cases hbuf : (u && !pyIsSpace c) || symMem ⟨u, false⟩ c
      · simp only [if_pos hbuf]
        simp [Except.map, stMap]
      · simp only [if_neg hbuf]
        simp [Except.map, stMap]
  | blank =>
    simp only [step, stMap]
    rw [symMem_translate u u c]
    by_cases hsym : symMem ⟨u, false⟩ c
    · simp [if_pos hsym, Except.map]
    · simp [if_neg hsym, Except.map, stMap]

lemma run_map (u : Bool) : ∀ (s : List Char) (st : ParseSt),
    runList ⟨u, true⟩ (stMap st) (s.map translate) =
      Except.map stMap (runList ⟨u, false⟩ st s) := by
  intro s
  induction s with
  | nil => intro st; simp [runList, Except.map]
  | cons c cs ih =>
    intro st
    simp only [List.map_cons, runList]
    rw [step_map u st c]
    cases hs : step ⟨u, false⟩ st c with
    | error e => simp [Except.map]
    | ok st1 =>
      simp only [Except.map]
      exact ih st1

lemma parse_map (u : Bool) (s : List Char) :
    parse ⟨u, true⟩ (s.map translate) = Except.map mapB (parse ⟨u, false⟩ s) := by
  unfold parse
  have hrun : runList ⟨u, true⟩ initSt (s.map translate) =
      Except.map stMap (runList ⟨u, false⟩ initSt s) := by
    conv_lhs => rw [← stMap_initSt]
    exact run_map u s initSt
  rw [hrun]
  cases hr : runList ⟨u, false⟩ initSt s with
  | error e => simp [Except.map]
  | ok st =>
    simp only [Except.map]
    cases hst : st.state with
    | idle => simp [stMap, hst]
    | raw => simp [stMap, hst]
    | blank => simp [stMap, hst]

/-! ### Name-erased shapes are preserved by the translation -/

theorem shapeB_mapB : ∀ b : List Elem, shapeB (mapB b) = shapeB b
  | [] => by simp [mapB, shapeB]
  | .instr i :: r => by
    simp only [mapB_cons, shapeB, mapElem]
    rw [shapeB_mapB r]
  | .name s :: r => by
    simp only [mapB_cons, shapeB, mapElem, shapeElem]
    rw [shapeB_mapB r]
  | .branch b2 :: r => by
    simp only [mapB_cons, shapeB, mapElem, shapeElem]
    rw [shapeB_mapB b2, shapeB_mapB r]

/-! ### Splitting and ignorable-character runs -/

lemma runList_append (cfg : Config) : ∀ (a b : List Char) (st : ParseSt),
    runList cfg st (a ++ b) =
      match runList cfg st a with
      | .error e => .error e
      | .ok st1 => runList cfg st1 b := by
  intro a
  induction a with
  | nil => intro b st; simp [runList]
  | cons c cs ih =>
    intro b st
    simp only [List.cons_append, runList]
    cases hs : step cfg st c with
    | error e => rfl
    | ok st1 => exact ih b st1

lemma step_ignore (cfg : Config) (st : ParseSt) (c : Char)
    (hstate : st.state = .idle ∨ st.state = .blank) (hc : resolve cfg c = none) :
    step cfg st c = .ok st := by
  obtain ⟨state, ast, sp, ins0, nc, ns⟩ := st
  rcases hstate with h | h
  · have h' : state = .idle := h
    subst h'
    simp [step, hc]
  · have h' : state = .blank := h
    subst h'
    simp [step, symMem, hc]

lemma run_ignore (cfg : Config) (st : ParseSt)
    (hstate : st.state = .idle ∨ st.state = .blank) :
    ∀ ins : List Char, (∀ c ∈ ins, resolve cfg c = none) → runList cfg st ins = .ok st := by
  intro ins
  induction ins with
  | nil => intro _; simp [runList]
  | cons c cs ih =>
    intro hall
    simp only [runList, step_ignore cfg st c hstate (hall c (by simp))]
    exact ih (fun c2 hc2 => hall c2 (by simp [hc2]))

lemma getLastq_cons_some : ∀ (e : Int) (r : List Int), ∃ d, (e :: r).getLast? = some d := by
  intro e r
  induction r generalizing e with
  | nil => exact ⟨e, rfl⟩
  | cons f t ih =>
    obtain ⟨d, hd⟩ := ih f
    exact ⟨d, by rw [List.getLast?_cons_cons]; exact hd⟩

/-! ## Claim theorems -/

/-- Claim C1, counterexample: on the spec's own scenario -- `decrypt` followed
by a third delimited name (`K` then three delimiters in the plain character
set) -- `parse` does not raise `InvalidArgumentCount`; the third delimiter is
consumed in `AwaitInstruction` as a fresh `name` instruction and the input
fails with `UnexpectedEOF` instead. -/
theorem claim_C1_counterexample :
    parse ⟨false, true⟩ ['K', 'P', 'P', 'P'] = .error .unexpectedEOF ∧
    parse ⟨false, true⟩ ['K', 'P', 'P', 'P'] ≠ .error .invalidArgumentCount := by
  constructor
  · rfl
  · intro h
    rw [show parse ⟨false, true⟩ ['K', 'P', 'P', 'P'] = .error .unexpectedEOF from rfl] at h
    simp at h

/-- Claim C1, amended: the `InvalidArgumentCount` guard is unreachable.  In
`CollectingName` the delimiter count always stays below the pending
instruction's arity (the machine returns to `AwaitInstruction` the moment the
count reaches the arity, resetting the count on the next instruction), so no
input under any configuration makes `parse` fail with
`InvalidArgumentCount`. -/
theorem claim_C1_amended (cfg : Config) (s : List Char) :
    parse cfg s ≠ .error .invalidArgumentCount := by
  unfold parse
  cases hr : runList cfg initSt s with
  | error e =>
    have hne := (run_good cfg s initSt (initSt_good cfg)).2.2
    rw [hr] at hne
    intro h
    dsimp only [] at h
    simp only [Except.error.injEq] at h
    subst h
    exact hne rfl
  | ok st =>
    cases hst : st.state <;> simp [hst]

/-- Claim C2: whenever a character resolving to the terminator `nil` is
consumed in `AwaitInstruction`, after appending `nil` the parser removes
exactly the trailing `SecondBranch` (`-1`) directives from the cursor path;
if the path empties the machine moves to the terminal `PostProgram` state
with an empty path, and otherwise the last remaining directive is
`FirstBranch` (`-2`) and is overwritten in place with `SecondBranch` (`-1`),
the machine remaining in `AwaitInstruction`. -/
theorem claim_C2 (cfg : Config) (st : ParseSt) (c : Char) (hre : Reachable cfg st)
    (hs : st.state = .idle) (hc : resolve cfg c = some nil) :
    (∃ m, st.stackPtr = popTrail st.stackPtr ++ List.replicate m (-1)) ∧
    ∃ a1, push st.ast (.instr nil) st.stackPtr = some a1 ∧
      ((popTrail st.stackPtr = [] ∧
        step cfg st c = .ok ⟨.blank, a1, [], nil, 0, st.nameStack⟩) ∨
       (popTrail st.stackPtr ≠ [] ∧ (popTrail st.stackPtr).getLast? = some (-2) ∧
        step cfg st c =
          .ok ⟨.idle, a1, setLast (popTrail st.stackPtr) (-1), nil, 0, st.nameStack⟩)) := by
  have hg := reachable_good cfg st hre
  obtain ⟨state, ast, sp, ins0, nc, ns⟩ := st
  have hs' : state = .idle := hs
  subst hs'
  have htree : TreeInv ast sp 0 := hg.tree
  refine ⟨popTrail_decomp sp, ?_⟩
  obtain ⟨a1, hp1, htree1⟩ := treeinv_pushL sp ast [.instr nil] 0 0 htree
    (fun cb hcb => hap_instr nil (by decide) cb hcb)
  rw [pushL_singleton] at hp1
  refine ⟨a1, hp1, ?_⟩
  cases hq : popTrail sp with
  | nil =>
    left
    refine ⟨rfl, ?_⟩
    simp only [step, hc, hp1, hq, eq_self_iff_true, if_true]
  | cons e r =>
    right
    refine ⟨by simp, ?_, ?_⟩
    · have hmem : ∀ d ∈ sp, d = -2 ∨ d = -1 := treeinv_mem sp ast 0 htree
      obtain ⟨d, hd⟩ := getLastq_cons_some e r
      have hne1 : d ≠ -1 := popTrail_last_ne sp (by simp [hq]) d (by rw [hq]; exact hd)
      have hdin : d ∈ sp := popTrail_mem sp d (by rw [hq]; exact getLastq_mem _ d hd)
      rcases hmem d hdin with h2 | h2
      · rw [hd, h2]
      · exact absurd h2 hne1
    · simp only [step, hc, hp1, hq, eq_self_iff_true, if_true]

/-- Claim C2, witness: in the reachable state reached after one `split`
(visual character set), consuming the terminator flips the single
`FirstBranch` directive to `SecondBranch` in place. -/
theorem claim_C2_witness :
    (∃ m, ([-2] : List Int) = popTrail [-2] ++ List.replicate m (-1)) ∧
    ∃ a1, push [Elem.instr split, .branch [], .branch []] (.instr nil) [-2] = some a1 ∧
      ((popTrail [-2] = [] ∧
        step ⟨false, false⟩
          ⟨.idle, [.instr split, .branch [], .branch []], [-2], split, 0, []⟩ '🔒' =
          .ok ⟨.blank, a1, [], nil, 0, []⟩) ∨
       (popTrail [-2] ≠ [] ∧ (popTrail [-2]).getLast? = some (-2) ∧
        step ⟨false, false⟩
          ⟨.idle, [.instr split, .branch [], .branch []], [-2], split, 0, []⟩ '🔒' =
          .ok ⟨.idle, a1, setLast (popTrail [-2]) (-1), nil, 0, []⟩)) :=
  claim_C2 ⟨false, false⟩
    ⟨.idle, [.instr split, .branch [], .branch []], [-2], split, 0, []⟩ '🔒'
    ⟨['🔓'], rfl⟩ rfl rfl

/-- Claim C3: `parse` fails with `UnexpectedEOF` exactly when the character
loop finishes with the machine in `AwaitInstruction` or `CollectingName`
(no step of the loop ever produces `UnexpectedEOF`), and reaching the end of
input in `PostProgram` returns the completed AST. -/
theorem claim_C3 (cfg : Config) (s : List Char) :
    (parse cfg s = .error .unexpectedEOF ↔
      ∃ st, runList cfg initSt s = .ok st ∧ (st.state = .idle ∨ st.state = .raw)) ∧
    (∀ st, runList cfg initSt s = .ok st → st.state = .blank → parse cfg s = .ok st.ast) := by
  constructor
  · constructor
    · intro h
      unfold parse at h
      cases hr : runList cfg initSt s with
      | error e =>
        rw [hr] at h
        simp only [Except.error.injEq] at h
        subst h
        exact absurd hr (run_no_eof cfg s initSt)
      | ok st =>
        rw [hr] at h
        cases hst : st.state with
        | idle => exact ⟨st, rfl, Or.inl hst⟩
        | raw => exact ⟨st, rfl, Or.inr hst⟩
        | blank => simp [hst] at h
    · rintro ⟨st, hr, hst⟩
      unfold parse
      rw [hr]
      rcases hst with h | h <;> simp [h]
  · intro st hr hst
    unfold parse
    rw [hr]
    simp [hst]

/-- Claim C3, witness: an input consisting of a single split symbol ends in
`AwaitInstruction` and therefore raises `UnexpectedEOF`. -/
theorem claim_C3_witness :
    parse ⟨false, false⟩ ['🔓'] = .error .unexpectedEOF :=
  (claim_C3 ⟨false, false⟩ ['🔓']).1.mpr
    ⟨⟨.idle, [.instr split, .branch [], .branch []], [-2], split, 0, []⟩, rfl, Or.inl rfl⟩

/-- Claim C4: in every successfully parsed AST, branch elements occur only as
adjacent sibling pairs immediately following a `split` instruction
(`splitPaired`), and the total number of branch elements is twice the number
of `split` nodes, i.e. the number of sibling pairs equals the number of
consumed split symbols. -/
theorem claim_C4 (cfg : Config) (s : List Char) (ast : List Elem)
    (h : parse cfg s = .ok ast) :
    splitPaired ast = true ∧ branchCount ast = 2 * splitCount ast := by
  obtain ⟨hscan, _⟩ := parse_ok_good cfg s ast h
  obtain ⟨h1, _, h3, _, _⟩ := scan_props 0 0 ast hscan
  exact ⟨h3 rfl, by omega⟩

/-- Claim C4, witness: the input split, nil, nil yields the root branch
`[split, [nil], [nil]]`, which satisfies both pairing properties. -/
theorem claim_C4_witness :
    parse ⟨false, true⟩ ['S', 'N', 'N'] =
      .ok [Elem.instr split, .branch [.instr nil], .branch [.instr nil]] ∧
    splitPaired [Elem.instr split, .branch [.instr nil], .branch [.instr nil]] = true ∧
    branchCount [Elem.instr split, .branch [.instr nil], .branch [.instr nil]] =
      2 * splitCount [Elem.instr split, .branch [.instr nil], .branch [.instr nil]] :=
  ⟨rfl, (claim_C4 ⟨false, true⟩ ['S', 'N', 'N'] _ rfl).1,
    (claim_C4 ⟨false, true⟩ ['S', 'N', 'N'] _ rfl).2⟩

/-- Claim C5: `parse` never fails on an `AST.push` call -- every indexing step
of every push stays in bounds and lands on a nested branch list (the modelled
`pushError` outcome is unreachable) -- and in every state reached by the
character loop every cursor-path entry is one of the sentinels `-2`
(`FirstBranch`) and `-1` (`SecondBranch`). -/
theorem claim_C5 (cfg : Config) (s : List Char) :
    parse cfg s ≠ .error .pushError ∧
    (∀ st, runList cfg initSt s = .ok st → ∀ d ∈ st.stackPtr, d = -2 ∨ d = -1) := by
  constructor
  · unfold parse
    cases hr : runList cfg initSt s with
    | error e =>
      have hne := (run_good cfg s initSt (initSt_good cfg)).2.1
      rw [hr] at hne
      intro h
      dsimp only [] at h
      simp only [Except.error.injEq] at h
      subst h
      exact hne rfl
    | ok st =>
      cases hst : st.state <;> simp [hst]
  · intro st hr d hd
    have hg := (run_good cfg s initSt (initSt_good cfg)).1 st hr
    exact treeinv_mem st.stackPtr st.ast (rawOwe st) hg.tree d hd

/-- Claim C5, witness: after consuming one split symbol the cursor path is
`[-2]`, whose sole entry is a valid sentinel, and the parse of that prefix
never hit a failing push. -/
theorem claim_C5_witness :
    parse ⟨false, false⟩ ['🔓'] ≠ .error .pushError ∧
    ((-2 : Int) = -2 ∨ (-2 : Int) = -1) :=
  ⟨(claim_C5 ⟨false, false⟩ ['🔓']).1,
    (claim_C5 ⟨false, false⟩ ['🔓']).2
      ⟨.idle, [.instr split, .branch [], .branch []], [-2], split, 0, []⟩ rfl (-2)
      (by simp)⟩

/-- Claim C6: translating a program symbol-for-symbol between the plain and
visual character sets (the involution `translate` swaps the two symbols of
each of the six instruction identities) and parsing under the corresponding
character-set mode yields the same outcome, with the resulting AST equal up
to the charwise translation of name literals (`mapB`); since `mapB` preserves
the name-erased shape, the two ASTs have identical branch nesting with the
same instruction identities in the same order. -/
theorem claim_C6 (u : Bool) (s : List Char) :
    parse ⟨u, true⟩ (s.map translate) = Except.map mapB (parse ⟨u, false⟩ s) ∧
    (∀ ast, parse ⟨u, false⟩ s = .ok ast → shapeB (mapB ast) = shapeB ast) :=
  ⟨parse_map u s, fun ast _ => shapeB_mapB ast⟩

/-- Claim C6, witness: the visual program split, nil, nil translates to the
plain program with the same tree shape. -/
theorem claim_C6_witness :
    parse ⟨false, true⟩ (['🔓', '🔒', '🔒'].map translate) =
      Except.map mapB (parse ⟨false, false⟩ ['🔓', '🔒', '🔒']) ∧
    shapeB (mapB [Elem.instr split, .branch [.instr nil], .branch [.instr nil]]) =
      shapeB [Elem.instr split, .branch [.instr nil], .branch [.instr nil]] :=
  ⟨(claim_C6 false ['🔓', '🔒', '🔒']).1,
    (claim_C6 false ['🔓', '🔒', '🔒']).2
      [Elem.instr split, .branch [.instr nil], .branch [.instr nil]] rfl⟩

/-- Claim C7: in every successfully parsed AST, every instruction node is
immediately followed within its branch by a run of name literals of length
exactly its declared arity (`arityRun 0`), the declared arities being 0 for
`nil` and `split`, 1 for `name`, and 2 for `decrypt`, `send` and
`receive`. -/
theorem claim_C7 (cfg : Config) (s : List Char) (ast : List Elem)
    (h : parse cfg s = .ok ast) :
    arityRun 0 ast = true ∧ nil.args = 0 ∧ split.args = 0 ∧ name.args = 1 ∧
      decrypt.args = 2 ∧ send.args = 2 ∧ receive.args = 2 := by
  obtain ⟨hscan, _⟩ := parse_ok_good cfg s ast h
  obtain ⟨_, h2, _, _, _⟩ := scan_props 0 0 ast hscan
  exact ⟨h2, rfl, rfl, rfl, rfl, rfl, rfl⟩

/-- Claim C7, witness: the plain program name, delimiter, nil parses to
`[name, "", nil]`, in which every instruction carries exactly its arity of
name literals. -/
theorem claim_C7_witness :
    parse ⟨false, true⟩ ['P', 'P', 'N'] = .ok [Elem.instr name, .name [], .instr nil] ∧
    arityRun 0 [Elem.instr name, .name [], .instr nil] = true :=
  ⟨rfl, (claim_C7 ⟨false, true⟩ ['P', 'P', 'N'] _ rfl).1⟩

/-- Claim C8: in `CollectingName`, a non-delimiter character is appended to
the name buffer exactly when unrestricted-name mode is active and the
character is not whitespace, or the character is one of the six recognized
instruction symbols; in every case the step succeeds and leaves the state,
AST, cursor path, pending instruction and name count unchanged. -/
theorem claim_C8 (cfg : Config) (st : ParseSt) (c : Char)
    (hs : st.state = .raw) (hc : c ≠ penChar cfg) :
    step cfg st c = .ok ⟨.raw, st.ast, st.stackPtr, st.instruction, st.nameCount,
      if (cfg.utf8Names && !pyIsSpace c) || symMem cfg c then st.nameStack ++ [c]
      else st.nameStack⟩ := by
  obtain ⟨state, ast, sp, ins0, nc, ns⟩ := st
  have hs' : state = .raw := hs
  subst hs'
  simp only [step, if_neg hc]
  split_ifs <;> rfl

/-- Claim C8, witness: in unrestricted mode the plain character `x` is
appended to the name buffer. -/
theorem claim_C8_witness :
    step ⟨true, true⟩ ⟨.raw, [.instr name], [], name, 0, []⟩ 'x' =
      .ok ⟨.raw, [Elem.instr name], [], name, 0,
        if ((⟨true, true⟩ : Config).utf8Names && !pyIsSpace 'x') || symMem ⟨true, true⟩ 'x'
        then [] ++ ['x'] else []⟩ :=
  claim_C8 ⟨true, true⟩ ⟨.raw, [.instr name], [], name, 0, []⟩ 'x' rfl (by decide)

/-- Claim C9: characters that do not resolve to a recognized instruction
symbol are identity steps in `AwaitInstruction` and `PostProgram`, so
inserting any run of such characters at a position where the machine is in
one of those states leaves the entire parse outcome -- including the
resulting AST -- unchanged, and never causes an error. -/
theorem claim_C9 (cfg : Config) (pre ins post : List Char) (st : ParseSt)
    (hpre : runList cfg initSt pre = .ok st)
    (hstate : st.state = .idle ∨ st.state = .blank)
    (hins : ∀ c ∈ ins, resolve cfg c = none) :
    parse cfg (pre ++ ins ++ post) = parse cfg (pre ++ post) := by
  have h2 : runList cfg initSt (pre ++ ins) = .ok st := by
    rw [runList_append cfg pre ins initSt, hpre]
    exact run_ignore cfg st hstate ins hins
  have h3 : runList cfg initSt ((pre ++ ins) ++ post) = runList cfg st post := by
    rw [runList_append cfg (pre ++ ins) post initSt, h2]
  have h4 : runList cfg initSt (pre ++ post) = runList cfg st post := by
    rw [runList_append cfg pre post initSt, hpre]
  unfold parse
  rw [h3, h4]

/-- Claim C9, witness: inserting the unrecognized character `x` before a
plain nil program does not change the parse. -/
theorem claim_C9_witness :
    parse ⟨false, true⟩ ([] ++ ['x'] ++ ['N']) = parse ⟨false, true⟩ ([] ++ ['N']) :=
  claim_C9 ⟨false, true⟩ [] ['x'] ['N'] initSt rfl (Or.inl rfl) (by
    intro c hc
    simp at hc
    subst hc
    decide)

/-- Claim C10: in every successfully parsed AST, no name literal contains the
delimiter (the `name` instruction's own symbol), because the delimiter test
precedes the buffering test; and in restricted mode every character of every
name literal is a recognized instruction symbol other than the delimiter. -/
theorem claim_C10 (cfg : Config) (s : List Char) (ast : List Elem)
    (h : parse cfg s = .ok ast) :
    namesOk (fun c => decide (c ≠ penChar cfg)) ast = true ∧
    (cfg.utf8Names = false →
      namesOk (fun c => symMem cfg c && decide (c ≠ penChar cfg)) ast = true) := by
  obtain ⟨_, hnames⟩ := parse_ok_good cfg s ast h
  constructor
  · refine namesOk_mono (nameChar cfg) _ ?_ ast hnames
    intro c hc
    unfold nameChar at hc
    simp at hc ⊢
    exact hc.1
  · intro hu
    refine namesOk_mono (nameChar cfg) _ ?_ ast hnames
    intro c hc
    unfold nameChar at hc
    rw [hu] at hc
    simp at hc ⊢
    exact ⟨hc.2, hc.1⟩

/-- Claim C10, witness: the restricted-mode program name, "N", delimiter, nil
produces the single name literal "N", which avoids the delimiter and uses
only recognized symbols. -/
theorem claim_C10_witness :
    parse ⟨false, true⟩ ['P', 'N', 'P', 'N'] =
      .ok [Elem.instr name, .name ['N'], .instr nil] ∧
    namesOk (fun c => decide (c ≠ penChar ⟨false, true⟩))
      [Elem.instr name, .name ['N'], .instr nil] = true ∧
    namesOk (fun c => symMem ⟨false, true⟩ c && decide (c ≠ penChar ⟨false, true⟩))
      [Elem.instr name, .name ['N'], .instr nil] = true :=
  ⟨rfl, (claim_C10 ⟨false, true⟩ ['P', 'N', 'P', 'N'] _ rfl).1,
    (claim_C10 ⟨false, true⟩ ['P', 'N', 'P', 'N'] _ rfl).2 rfl⟩

end Padlock
